import Mathlib

/-!
# Flat-key encoding of paths (`metadata.go`)

A shallow embedding of the path codec of `metadata.go`: `Path.IsDir`,
`Path.GetDepth`, `Path.Key`, `Path.SubdirsPrefix` and `Path.Filename`,
together with the Go standard-library functions they call (`path.Split`,
`strings.TrimSuffix`, `strings.Count`, and the `%s` / `%04x` verbs of
`fmt.Sprintf`).

A Go `string` is an immutable sequence of bytes, so strings are lists of
bytes here.  `GetDepth` returns a Go `int`; its value is a count of bytes of a
string held in memory, so it never leaves the range of `int` and is a `Nat`.

The registry of metadata services (`RegisterMetadataService`,
`CreateMetadataService`) is embedded by passing the package variable
`metadataServices` in and out; a panic is an explicit result.
-/

set_option linter.dupNamespace false

namespace Agro

/-- A byte of a Go string. -/
abbrev Byte := Fin 256

/-- A Go `string`: a sequence of bytes. -/
abbrev GoString := List Byte

/-- The byte `'/'`, the path separator. -/
def slash : Byte := 47

/-- The byte `':'`, the delimiter of the flat key. -/
def colon : Byte := 58

/-- The byte `'0'`, used by `%04x` for padding. -/
def zero : Byte := 48

/-- The bytes of an ASCII string literal (used to write concrete inputs). -/
def ascii (s : String) : GoString :=
  s.toList.map (fun c => Fin.ofNat c.toNat)

/-! ## Go standard library -/

/-- The loop of `bytealg.LastIndexByteString`:
`for i := len(s) - 1; i >= 0; i-- { if s[i] == c { return i } }; return -1`,
where the first argument is the number of indices still to visit (`i + 1`). -/
def lastIndexFrom (s : GoString) (c : Byte) : Nat → Int
  | 0 => -1
  | i + 1 => if s.get? i = some c then (i : Int) else lastIndexFrom s c i

/-- Go `bytealg.LastIndexByteString(s, c)`: the index of the last `c` in `s`,
or `-1`. -/
def LastIndexByte (s : GoString) (c : Byte) : Int :=
  lastIndexFrom s c s.length

/-- Go `path.Split`:
`i := bytealg.LastIndexByteString(path, '/'); return path[:i+1], path[i+1:]`. -/
def Split (path : GoString) : GoString × GoString :=
  let i := LastIndexByte path slash
  (path.take (i + 1).toNat, path.drop (i + 1).toNat)

/-- Go `strings.HasSuffix`:
`len(s) >= len(suffix) && s[len(s)-len(suffix):] == suffix`. -/
def HasSuffix (s suffix : GoString) : Bool :=
  decide (s.length ≥ suffix.length) && (s.drop (s.length - suffix.length) == suffix)

/-- Go `strings.TrimSuffix`:
`if HasSuffix(s, suffix) { return s[:len(s)-len(suffix)] }; return s`. -/
def TrimSuffix (s suffix : GoString) : GoString :=
  if HasSuffix s suffix then s.take (s.length - suffix.length) else s

/-- Go `strings.Count(s, substr)` for a one-byte `substr`, which is
`bytealg.CountString(s, substr[0])`: the number of bytes of `s` equal to it. -/
def Count (s : GoString) (c : Byte) : Nat :=
  s.count c

/-- The digit table of package `fmt`: `ldigits = "0123456789abcdefx"`. -/
def ldigits : GoString :=
  [48, 49, 50, 51, 52, 53, 54, 55, 56, 57, 97, 98, 99, 100, 101, 102, 120]

/-- The byte `ldigits[i]`. -/
def digitAt (i : Nat) : Byte :=
  ldigits.getD i zero

/-- The base-16 loop of `fmt.fmtInteger`, writing digits right to left in
front of `buf`:
`for u >= 16 { i--; buf[i] = digits[u&0xF]; u >>= 4 }; i--; buf[i] = digits[u]`.
The first argument bounds the number of iterations. -/
def fmtHexLoop : Nat → Nat → GoString → GoString
  | 0, u, buf => digitAt u :: buf
  | fuel + 1, u, buf =>
    if u ≥ 16 then fmtHexLoop fuel (u / 16) (digitAt (u % 16) :: buf)
    else digitAt u :: buf

/-- The digits `fmt.fmtInteger` writes for a non-negative `u` in base 16. -/
def hexDigits (u : Nat) : GoString :=
  fmtHexLoop u u []

/-- The padding loop of `fmt.fmtInteger` for the zero flag with width `prec`:
`for i > 0 && prec > len(buf)-i { i--; buf[i] = '0' }`. -/
def zeroPad (prec : Nat) (digits : GoString) : GoString :=
  List.replicate (prec - digits.length) zero ++ digits

/-- The verb `%04x` of `fmt.Sprintf` applied to a non-negative integer. -/
def fmt04x (u : Nat) : GoString :=
  zeroPad 4 (hexDigits u)

/-- Go `fmt.Sprintf("%s:%04x:%s", a, n, b)`. -/
def sprintfKey (a : GoString) (n : Nat) (b : GoString) : GoString :=
  a ++ [colon] ++ fmt04x n ++ [colon] ++ b

/-! ## `metadata.go` -/

/-- Path represents the location of a File including the Volume and the
unix-style path string. -/
structure Path where
  Volume : GoString
  Path : GoString
deriving DecidableEq, Repr

/-- Go `s[i]`; `none` is the run-time panic on an index out of range. -/
def byteAt (s : GoString) (i : Nat) : Option Byte :=
  s.get? i

/-- Method `Path.IsDir`: whether or not a path is a directory; `none` is a
panic. -/
def Path.IsDir (p : Agro.Path) : Option Bool :=
  if p.Path.length = 0 then some false
  else (byteAt p.Path (p.Path.length - 1)).map (fun b => b == slash)

/-- Method `Path.GetDepth`: the distance of the current path from the root of the
filesystem. -/
def Path.GetDepth (p : Agro.Path) : Nat :=
  let dir := (Split p.Path).1
  if dir = [slash] then 0
  else Count (TrimSuffix dir [slash]) slash

/-- Method `Path.Key`: the flat key of the directory record holding the
path. -/
def Path.Key (p : Agro.Path) : GoString :=
  let dir := (Split p.Path).1
  sprintfKey p.Volume p.GetDepth dir

/-- Method `Path.SubdirsPrefix`: the key prefix of the subdirectories of the
path. -/
def Path.SubdirsPrefix (p : Agro.Path) : GoString :=
  let dir := (Split p.Path).1
  sprintfKey p.Volume (p.GetDepth + 1) dir

/-- Method `Path.Filename`: the file part of `path.Split`. -/
def Path.Filename (p : Agro.Path) : GoString :=
  (Split p.Path).2


/-! ## The registry of metadata services -/

/-- The type `CreateMetadataServiceFunc`, the signature of a constructor used
to create a registered MetadataService: `func(cfg Config) (MetadataService,
error)`.  The types `Config`, `MetadataService` and `error` are parameters, and
a constructor may act on the rest of the program state `W`.  A Go func value
may be `nil`, which is `none`. -/
abbrev CreateMetadataServiceFunc (Config Service Err W : Type) : Type :=
  Option (Config → W → (Service × Err) × W)

/-- A Go `map[string]CreateMetadataServiceFunc`: `none` is the nil map, and a
key is absent where the function gives `none`. -/
abbrev ServiceMap (Config Service Err W : Type) : Type :=
  Option (GoString → Option (CreateMetadataServiceFunc Config Service Err W))

/-- Go `make(map[string]CreateMetadataServiceFunc)`: the empty map. -/
def makeMap {Config Service Err W : Type} : ServiceMap Config Service Err W :=
  some (fun _ => none)

/-- Go `v, ok := m[name]`: the value and `true` where the key is present, the
zero value `nil` and `false` where it is absent or the map is nil. -/
def mapIndex {Config Service Err W : Type} (m : ServiceMap Config Service Err W)
    (name : GoString) : CreateMetadataServiceFunc Config Service Err W × Bool :=
  match m with
  | none => (none, false)
  | some g =>
    match g name with
    | none => (none, false)
    | some f => (f, true)

/-- Go `m[name] = v`; `none` is the panic of an assignment to an entry of a
nil map. -/
def mapAssign {Config Service Err W : Type} (m : ServiceMap Config Service Err W)
    (name : GoString) (v : CreateMetadataServiceFunc Config Service Err W) :
    Option (ServiceMap Config Service Err W) :=
  match m with
  | none => none
  | some g => some (some (fun k => if k = name then some v else g k))

/-- How a call ends: it returns, or it panics with a message. -/
inductive Outcome where
  | returned : Outcome
  | panicked (msg : GoString) : Outcome
deriving DecidableEq, Repr

/-- The function `RegisterMetadataService`: the hook used for implementations
of MetadataServices to register themselves to the system.  The package
variable `metadataServices` is passed in, and its value when the call ends is
returned with the outcome of the call. -/
def RegisterMetadataService {Config Service Err W : Type}
    (metadataServices : ServiceMap Config Service Err W) (name : GoString)
    (newFunc : CreateMetadataServiceFunc Config Service Err W) :
    ServiceMap Config Service Err W × Outcome :=
  let ms := if metadataServices.isNone then makeMap else metadataServices
  if (mapIndex ms name).2 then
    (ms, Outcome.panicked
      (ascii "agro: attempted to register MetadataService " ++ name ++ ascii " twice"))
  else
    match mapAssign ms name newFunc with
    | some ms1 => (ms1, Outcome.returned)
    | none => (ms, Outcome.panicked (ascii "assignment to entry in nil map"))

/-- The call `f(cfg)` of a Go func value in the program state `w`; `none` is
the panic of calling a nil func. -/
def callFunc {Config Service Err W : Type} (f : CreateMetadataServiceFunc Config Service Err W)
    (cfg : Config) (w : W) : Option ((Service × Err) × W) :=
  match f with
  | none => none
  | some g => some (g cfg w)

/-- The function `CreateMetadataService`: calls the constructor of the
specified MetadataService: `return metadataServices[name](cfg)`. -/
def CreateMetadataService {Config Service Err W : Type}
    (metadataServices : ServiceMap Config Service Err W) (name : GoString)
    (cfg : Config) (w : W) : Option ((Service × Err) × W) :=
  callFunc (mapIndex metadataServices name).1 cfg w

/-- A sequence of calls of `RegisterMetadataService`, carried on after a call
that panics (as when the panic is recovered). -/
def registerAll {Config Service Err W : Type} (m : ServiceMap Config Service Err W) :
    List (GoString × CreateMetadataServiceFunc Config Service Err W) →
      ServiceMap Config Service Err W
  | [] => m
  | (name, f) :: rest => registerAll (RegisterMetadataService m name f).1 rest

/-- A sample constructor: it returns the service 7 with the error 0 and
counts its calls in the program state. -/
def sampleCtor : Unit → Nat → (Nat × Nat) × Nat :=
  fun _ w => ((7, 0), w + 1)

/-! ## The key format in the words of the specification -/

/-- The lowercase hexadecimal digit of a value below 16: `'0'`..`'9'`, then
`'a'`..`'f'`. -/
def lowerHexDigit (d : Nat) : Byte :=
  if d < 10 then Fin.ofNat (48 + d) else Fin.ofNat (97 + (d - 10))

/-- The lowercase hexadecimal numeral of `n`, most significant digit first;
the numeral of zero is `"0"`. -/
def hexNumeral (n : Nat) : GoString :=
  if n = 0 then [zero] else (Nat.digits 16 n).reverse.map lowerHexDigit

/-- Left-padding of `s` with the byte `c` to at least `w` bytes. -/
def padLeft (w : Nat) (c : Byte) (s : GoString) : GoString :=
  List.replicate (w - s.length) c ++ s

/-- The depth field of the key format `{depth:04x}`: the lowercase
hexadecimal numeral left-padded with `'0'` to at least 4 digits. -/
def hex04 (n : Nat) : GoString :=
  padLeft 4 zero (hexNumeral n)

/-- ParentDir: everything up to and including the last separator, empty if
there is none. -/
def ParentDir (path : GoString) : GoString :=
  (path.reverse.dropWhile (fun b => b != slash)).reverse

/-- Whether a byte is a lowercase hexadecimal digit. -/
def isHexDigit (b : Byte) : Bool :=
  (48 ≤ b.val && b.val ≤ 57) || (97 ≤ b.val && b.val ≤ 102)

/-- The value of a lowercase hexadecimal digit. -/
def hexVal (b : Byte) : Nat :=
  if b.val < 58 then b.val - 48 else b.val - 87

/-- The number a string of hexadecimal digits denotes. -/
def hexDecode (s : GoString) : Nat :=
  s.foldl (fun acc b => 16 * acc + hexVal b) 0

/-- The number of separators in a directory part after removing one trailing
separator, if present. -/
def countSeparators (dir : GoString) : Nat :=
  (if dir.getLast? = some slash then dir.dropLast else dir).count slash

/-- A directory path nested 65536 levels deep: 65537 separators, in the empty
volume. -/
def deepPath : Path :=
  Path.mk [] (List.replicate 65536 slash ++ [slash])

/-- The trailing path component: everything after the last separator, the
whole path if there is none. -/
def lastComponent (path : GoString) : GoString :=
  (path.reverse.takeWhile (fun b => b != slash)).reverse

/-- Go's `<` on strings (`runtime.cmpstring`): byte-wise lexicographic
comparison, a proper prefix being smaller. -/
def strLess : GoString → GoString → Bool
  | [], [] => false
  | [], _ :: _ => true
  | _ :: _, [] => false
  | a :: as, b :: bs =>
    if a < b then true else if b < a then false else strLess as bs

/-! ## Lemmas on the library functions -/

theorem lastIndexFrom_append_right (a f : GoString) (c : Byte) (hf : c ∉ f) :
    ∀ k, k ≤ f.length →
      lastIndexFrom (a ++ f) c (a.length + k) = lastIndexFrom (a ++ f) c a.length := by
  intro k
  induction k with
  | zero => intro _; rfl
  | succ k ih =>
    intro hk
    have hne : (a ++ f).get? (a.length + k) ≠ some c := by
      intro h
      rw [List.get?_eq_getElem?, List.getElem?_append_right (by omega)] at h
      have hk2 : a.length + k - a.length = k := by omega
      rw [hk2] at h
      exact hf (List.getElem?_mem h)
    show lastIndexFrom (a ++ f) c (a.length + k + 1) = _
    rw [lastIndexFrom, if_neg hne]
    exact ih (by omega)

theorem LastIndexByte_of_not_mem (f : GoString) (c : Byte) (hf : c ∉ f) :
    LastIndexByte f c = -1 := by
  have h := lastIndexFrom_append_right [] f c hf f.length le_rfl
  simp only [List.nil_append, List.length_nil, Nat.zero_add] at h
  rw [LastIndexByte, h]
  rfl

theorem LastIndexByte_append_sep (d f : GoString) (c : Byte) (hf : c ∉ f) :
    LastIndexByte (d ++ c :: f) c = (d.length : Int) := by
  have h := lastIndexFrom_append_right (d ++ [c]) f c hf f.length le_rfl
  have e : (d ++ [c]) ++ f = d ++ c :: f := by simp
  rw [e] at h
  have hl : (d ++ c :: f).length = (d ++ [c]).length + f.length := by simp; omega
  rw [LastIndexByte, hl, h]
  have hl2 : (d ++ [c]).length = d.length + 1 := by simp
  rw [hl2, lastIndexFrom, if_pos]
  rw [List.get?_eq_getElem?, List.getElem?_append_right le_rfl]
  simp

/-- A path with a separator followed by a separator-free tail splits at that
separator. -/
theorem Split_append_sep (d f : GoString) (hf : slash ∉ f) :
    Split (d ++ slash :: f) = (d ++ [slash], f) := by
  have h := LastIndexByte_append_sep d f slash hf
  have e : d ++ slash :: f = (d ++ [slash]) ++ f := by simp
  have hn : ((d.length : Int) + 1).toNat = (d ++ [slash]).length := by
    simp
  simp only [Split, h, hn]
  rw [e, List.take_left, List.drop_left]

/-- A path without a separator has an empty directory part. -/
theorem Split_of_not_mem (f : GoString) (hf : slash ∉ f) : Split f = ([], f) := by
  have h := LastIndexByte_of_not_mem f slash hf
  simp [Split, h]

/-- Every path splits into a directory part that is empty or ends in the
separator and a file part without separators. -/
theorem exists_split (path : GoString) :
    ∃ d f, path = d ++ f ∧ slash ∉ f ∧ (d = [] ∨ ∃ d', d = d' ++ [slash]) := by
  induction path using List.reverseRecOn with
  | nil => exact ⟨[], [], rfl, by simp, Or.inl rfl⟩
  | append_singleton ys b ih =>
    by_cases hb : b = slash
    · exact ⟨ys ++ [b], [], by simp, by simp, Or.inr ⟨ys, by rw [hb]⟩⟩
    · obtain ⟨d, f, hp, hf, hd⟩ := ih
      refine ⟨d, f ++ [b], by rw [hp]; simp, ?_, hd⟩
      simp only [List.mem_append, List.mem_singleton, not_or]
      exact ⟨hf, fun h => hb h.symm⟩

theorem Split_append (path : GoString) : (Split path).1 ++ (Split path).2 = path := by
  simp [Split]

theorem Split_snd_not_mem (path : GoString) : slash ∉ (Split path).2 := by
  obtain ⟨d, f, hp, hf, hd⟩ := exists_split path
  rcases hd with hd | ⟨d', hd⟩
  · subst hd
    simp only [List.nil_append] at hp
    subst hp
    rw [Split_of_not_mem _ hf]
    exact hf
  · subst hd
    have e : d' ++ [slash] ++ f = d' ++ slash :: f := by simp
    rw [hp, e, Split_append_sep d' f hf]
    exact hf

theorem Split_fst_cases (path : GoString) :
    (Split path).1 = [] ∨ ∃ d', (Split path).1 = d' ++ [slash] := by
  obtain ⟨d, f, hp, hf, hd⟩ := exists_split path
  rcases hd with hd | ⟨d', hd⟩
  · subst hd
    simp only [List.nil_append] at hp
    subst hp
    rw [Split_of_not_mem _ hf]
    exact Or.inl rfl
  · subst hd
    have e : d' ++ [slash] ++ f = d' ++ slash :: f := by simp
    rw [hp, e, Split_append_sep d' f hf]
    exact Or.inr ⟨d', rfl⟩

/-- The directory part of a path ending in the separator is the whole path. -/
theorem Split_dir (d : GoString) : Split (d ++ [slash]) = (d ++ [slash], []) :=
  Split_append_sep d [] (by simp)

/-- Appending a separator-free name to a path ending in the separator leaves
the directory part unchanged. -/
theorem Split_dir_append (d n : GoString) (hn : slash ∉ n) :
    Split (d ++ [slash] ++ n) = (d ++ [slash], n) := by
  have e : d ++ [slash] ++ n = d ++ slash :: n := by simp
  rw [e]
  exact Split_append_sep d n hn

/-- The directory part of a path extends any prefix ending in the separator. -/
theorem Split_fst_sep_append (a rest : GoString) :
    (Split (a ++ [slash] ++ rest)).1 = a ++ [slash] ++ (Split rest).1 := by
  obtain ⟨d, f, hp, hf, hd⟩ := exists_split rest
  rcases hd with hd | ⟨d', hd⟩
  · subst hd
    simp only [List.nil_append] at hp
    subst hp
    rw [Split_of_not_mem _ hf, Split_dir_append a rest hf]
    simp
  · subst hd
    have e1 : rest = d' ++ slash :: f := by rw [hp]; simp
    have e2 : a ++ [slash] ++ rest = (a ++ [slash] ++ d') ++ slash :: f := by rw [e1]; simp
    rw [e2, Split_append_sep _ f hf, e1, Split_append_sep d' f hf]
    simp

/-- A path for which `IsDir` holds ends in the separator. -/
theorem IsDir_iff (p : Path) : p.IsDir = some true ↔ ∃ d, p.Path = d ++ [slash] := by
  constructor
  · intro h
    unfold Path.IsDir byteAt at h
    split at h
    · simp at h
    · rename_i hne
      refine ⟨p.Path.dropLast, ?_⟩
      have hne2 : p.Path ≠ [] := fun e => hne (by simp [e])
      rw [List.get?_eq_getElem?, ← List.getLast?_eq_getElem?] at h
      rw [List.getLast?_eq_getLast _ hne2] at h
      simp only [Option.map_some', Option.some.injEq, beq_iff_eq] at h
      conv_lhs => rw [← List.dropLast_append_getLast hne2]
      rw [h]
  · rintro ⟨d, hd⟩
    unfold Path.IsDir byteAt
    rw [hd]
    simp

/-! ### The verb `%04x` -/

theorem digitAt_eq (d : Nat) (h : d < 16) : digitAt d = lowerHexDigit d := by
  interval_cases d <;> rfl

theorem isHexDigit_lowerHexDigit (d : Nat) (h : d < 16) :
    isHexDigit (lowerHexDigit d) = true := by
  interval_cases d <;> rfl

theorem hexVal_lowerHexDigit (d : Nat) (h : d < 16) : hexVal (lowerHexDigit d) = d := by
  interval_cases d <;> rfl

theorem hexNumeral_of_lt (u : Nat) (h : u < 16) : hexNumeral u = [lowerHexDigit u] := by
  unfold hexNumeral
  split
  · next h0 => subst h0; rfl
  · next h0 => rw [Nat.digits_of_lt 16 u h0 h]; rfl

theorem hexNumeral_step (u : Nat) (h : 16 ≤ u) :
    hexNumeral u = hexNumeral (u / 16) ++ [lowerHexDigit (u % 16)] := by
  have h0 : u ≠ 0 := by omega
  have h1 : u / 16 ≠ 0 := by omega
  unfold hexNumeral
  rw [if_neg h0, if_neg h1, Nat.digits_def' (by norm_num) (by omega)]
  simp

theorem fmtHexLoop_eq : ∀ (fuel u : Nat) (buf : GoString), u ≤ fuel →
    fmtHexLoop fuel u buf = hexNumeral u ++ buf := by
  intro fuel
  induction fuel with
  | zero =>
    intro u buf hu
    have h0 : u = 0 := by omega
    subst h0
    rfl
  | succ fuel ih =>
    intro u buf hu
    rw [fmtHexLoop]
    split
    · next h16 =>
      rw [ih (u / 16) _ (by omega), hexNumeral_step u h16, digitAt_eq _ (Nat.mod_lt _ (by norm_num))]
      simp
    · next h16 =>
      rw [hexNumeral_of_lt u (by omega), digitAt_eq u (by omega)]
      rfl

/-- The loop of `fmtInteger` always runs to completion and writes the
hexadecimal numeral. -/
theorem hexDigits_eq (u : Nat) : hexDigits u = hexNumeral u := by
  rw [hexDigits, fmtHexLoop_eq u u [] le_rfl, List.append_nil]

theorem fmt04x_eq (u : Nat) : fmt04x u = hex04 u := by
  rw [fmt04x, zeroPad, hexDigits_eq]
  rfl

theorem hexNumeral_isHexDigit (u : Nat) : ∀ b ∈ hexNumeral u, isHexDigit b = true := by
  intro b hb
  unfold hexNumeral at hb
  split at hb
  · simp only [List.mem_singleton] at hb
    subst hb
    rfl
  · simp only [List.mem_map, List.mem_reverse] at hb
    obtain ⟨d, hd, rfl⟩ := hb
    exact isHexDigit_lowerHexDigit d (Nat.digits_lt_base (by norm_num) hd)

theorem fmt04x_isHexDigit (u : Nat) : ∀ b ∈ fmt04x u, isHexDigit b = true := by
  intro b hb
  rw [fmt04x, zeroPad, hexDigits_eq, List.mem_append] at hb
  rcases hb with hb | hb
  · rw [List.eq_of_mem_replicate hb]
    rfl
  · exact hexNumeral_isHexDigit u b hb

theorem colon_not_mem_fmt04x (u : Nat) : colon ∉ fmt04x u := by
  intro h
  have := fmt04x_isHexDigit u colon h
  revert this
  decide

theorem hexDecode_append_singleton (s : GoString) (b : Byte) :
    hexDecode (s ++ [b]) = 16 * hexDecode s + hexVal b := by
  simp [hexDecode, List.foldl_append]

theorem hexDecode_hexNumeral (u : Nat) : hexDecode (hexNumeral u) = u := by
  induction u using Nat.strong_induction_on with
  | _ u ih =>
    by_cases h : 16 ≤ u
    · rw [hexNumeral_step u h, hexDecode_append_singleton, ih (u / 16) (by omega),
        hexVal_lowerHexDigit _ (Nat.mod_lt _ (by norm_num))]
      omega
    · rw [hexNumeral_of_lt u (by omega)]
      simp [hexDecode, hexVal_lowerHexDigit u (by omega)]

theorem hexDecode_zeros (k : Nat) (s : GoString) :
    hexDecode (List.replicate k zero ++ s) = hexDecode s := by
  induction k with
  | zero => rfl
  | succ k ih =>
    have e : hexDecode (zero :: (List.replicate k zero ++ s))
        = hexDecode (List.replicate k zero ++ s) := by
      have hz : 16 * 0 + hexVal zero = 0 := by decide
      simp only [hexDecode, List.foldl_cons, hz]
    rw [List.replicate_succ, List.cons_append, e, ih]

/-- Reading back the text `%04x` writes gives the number written. -/
theorem hexDecode_fmt04x (u : Nat) : hexDecode (fmt04x u) = u := by
  rw [fmt04x, zeroPad, hexDecode_zeros, hexDigits_eq, hexDecode_hexNumeral]

theorem fmt04x_injective {a b : Nat} (h : fmt04x a = fmt04x b) : a = b := by
  have := congrArg hexDecode h
  rwa [hexDecode_fmt04x, hexDecode_fmt04x] at this

theorem hexNumeral_length_le_four (u : Nat) : (hexNumeral u).length ≤ 4 ↔ u < 65536 := by
  by_cases h0 : u = 0
  · subst h0
    simp [hexNumeral]
  · unfold hexNumeral
    rw [if_neg h0]
    simp only [List.length_map, List.length_reverse]
    constructor
    · intro h
      have h1 := @Nat.lt_base_pow_length_digits 16 u (by norm_num)
      have h2 : 16 ^ (Nat.digits 16 u).length ≤ 16 ^ 4 :=
        Nat.pow_le_pow_right (by norm_num) h
      omega
    · intro h
      by_contra hc
      have h1 := Nat.base_pow_length_digits_le 16 u (by norm_num) h0
      have h2 : 16 ^ 5 ≤ 16 ^ (Nat.digits 16 u).length :=
        Nat.pow_le_pow_right (by norm_num) (by omega)
      omega

theorem fmt04x_length_ge (u : Nat) : 4 ≤ (fmt04x u).length := by
  simp only [fmt04x, zeroPad, List.length_append, List.length_replicate]
  omega

theorem fmt04x_length_eq_four (u : Nat) : (fmt04x u).length = 4 ↔ u < 65536 := by
  rw [← hexNumeral_length_le_four, ← hexDigits_eq]
  simp only [fmt04x, zeroPad, List.length_append, List.length_replicate]
  omega

/-! ### Directory part and depth -/

theorem dropWhile_append_of_forall {α : Type} (p : α → Bool) (l r : List α)
    (h : ∀ x ∈ l, p x = true) : (l ++ r).dropWhile p = r.dropWhile p := by
  induction l with
  | nil => rfl
  | cons x l ih =>
    have hx : p x = true := h x (List.mem_cons_self x l)
    rw [List.cons_append, List.dropWhile_cons, if_pos hx]
    exact ih (fun y hy => h y (List.mem_cons_of_mem x hy))

/-- The directory part `path.Split` returns is ParentDir. -/
theorem Split_fst_eq_ParentDir (path : GoString) : (Split path).1 = ParentDir path := by
  obtain ⟨d, f, hp, hf, hd⟩ := exists_split path
  have hall : ∀ x ∈ f.reverse, (x != slash) = true := by
    intro x hx
    rw [List.mem_reverse] at hx
    simp only [bne_iff_ne, ne_eq]
    rintro rfl
    exact hf hx
  rcases hd with hd | ⟨d', hd⟩
  · subst hd
    simp only [List.nil_append] at hp
    subst hp
    rw [Split_of_not_mem _ hf, ParentDir]
    have := dropWhile_append_of_forall (fun b => b != slash) path.reverse [] hall
    rw [List.append_nil] at this
    rw [this]
    rfl
  · subst hd
    have e : d' ++ [slash] ++ f = d' ++ slash :: f := by simp
    rw [hp, e, Split_append_sep d' f hf, ParentDir]
    have e2 : (d' ++ slash :: f).reverse = f.reverse ++ slash :: d'.reverse := by simp
    rw [e2, dropWhile_append_of_forall _ _ _ hall, List.dropWhile_cons]
    simp

theorem TrimSuffix_sep (d : GoString) : TrimSuffix (d ++ [slash]) [slash] = d := by
  simp [TrimSuffix, HasSuffix]

theorem TrimSuffix_nil : TrimSuffix [] [slash] = [] := by
  rfl

/-- The depth is the number of separators of the directory part without its
last byte. -/
theorem GetDepth_eq_count (p : Path) :
    p.GetDepth = ((Split p.Path).1.dropLast).count slash := by
  unfold Path.GetDepth
  rcases Split_fst_cases p.Path with h | ⟨d', h⟩
  · rw [h]
    rfl
  · rw [h]
    simp only [TrimSuffix_sep, Count, List.dropLast_concat]
    split
    · next h1 =>
      have : d' = [] := by
        cases d' with
        | nil => rfl
        | cons x xs => simp at h1
      rw [this]
      rfl
    · rfl

theorem GetDepth_congr (p q : Path) (h : (Split p.Path).1 = (Split q.Path).1) :
    p.GetDepth = q.GetDepth := by
  rw [GetDepth_eq_count, GetDepth_eq_count, h]

/-- The depth of a directory path counts the separators before the last. -/
theorem GetDepth_dir (v d : GoString) : (Path.mk v (d ++ [slash])).GetDepth = d.count slash := by
  rw [GetDepth_eq_count]
  simp only [Split_dir, List.dropLast_concat]

/-! ### The delimiters of the flat key -/

theorem List.prefix_of_eq_self {α : Type} {l m : List α} (h : l = m) : l <+: m := by
  rw [h]

theorem sep_isPrefix {c : Byte} : ∀ {xs ys r r1 : GoString}, c ∉ xs → c ∉ ys →
    xs ++ c :: r <+: ys ++ c :: r1 → xs = ys ∧ r <+: r1 := by
  intro xs
  induction xs with
  | nil =>
    intro ys r r1 _ hy h
    cases ys with
    | nil =>
      simp only [List.nil_append, List.cons_prefix_cons, true_and] at h
      exact ⟨rfl, h⟩
    | cons y ys =>
      simp only [List.nil_append, List.cons_append, List.cons_prefix_cons] at h
      exact absurd (h.1 ▸ List.mem_cons_self y ys) hy
  | cons x xs ih =>
    intro ys r r1 hx hy h
    cases ys with
    | nil =>
      simp only [List.nil_append, List.cons_append, List.cons_prefix_cons] at h
      exact absurd (h.1 ▸ List.mem_cons_self x xs) hx
    | cons y ys =>
      simp only [List.cons_append, List.cons_prefix_cons] at h
      have := ih (fun m => hx (List.mem_cons_of_mem x m))
        (fun m => hy (List.mem_cons_of_mem y m)) h.2
      exact ⟨by rw [h.1, this.1], this.2⟩

theorem sep_eq {c : Byte} {xs ys r r1 : GoString} (hx : c ∉ xs) (hy : c ∉ ys)
    (h : xs ++ c :: r = ys ++ c :: r1) : xs = ys ∧ r = r1 := by
  have h1 := (sep_isPrefix hx hy (List.prefix_of_eq_self h)).1
  subst h1
  have h2 := List.append_cancel_left h
  exact ⟨rfl, (List.cons.inj h2).2⟩

theorem sprintfKey_unfold (a : GoString) (n : Nat) (b : GoString) :
    sprintfKey a n b = a ++ colon :: (fmt04x n ++ colon :: b) := by
  simp [sprintfKey]

/-- With the same first field, one formatted key is a prefix of another only
if the numbers agree and the last fields are in the prefix relation. -/
theorem sprintfKey_isPrefix {a b b1 : GoString} {n m : Nat}
    (h : sprintfKey a n b <+: sprintfKey a m b1) : n = m ∧ b <+: b1 := by
  rw [sprintfKey_unfold, sprintfKey_unfold, List.prefix_append_right_inj,
    List.cons_prefix_cons] at h
  have := sep_isPrefix (colon_not_mem_fmt04x n) (colon_not_mem_fmt04x m) h.2
  exact ⟨fmt04x_injective this.1, this.2⟩

theorem sprintfKey_eq_iff_same {a b b1 : GoString} {n m : Nat} :
    sprintfKey a n b = sprintfKey a m b1 ↔ n = m ∧ b = b1 := by
  constructor
  · intro h
    have h1 := (sprintfKey_isPrefix (List.prefix_of_eq_self h)).1
    subst h1
    rw [sprintfKey_unfold, sprintfKey_unfold] at h
    have h2 := (List.cons.inj (List.append_cancel_left h)).2
    exact ⟨rfl, (List.cons.inj (List.append_cancel_left h2)).2⟩
  · rintro ⟨rfl, rfl⟩
    rfl

theorem sprintfKey_eq_iff {a a1 b b1 : GoString} {n m : Nat}
    (ha : colon ∉ a) (ha1 : colon ∉ a1) :
    sprintfKey a n b = sprintfKey a1 m b1 ↔ a = a1 ∧ n = m ∧ b = b1 := by
  constructor
  · intro h
    have h0 := h
    rw [sprintfKey_unfold, sprintfKey_unfold] at h0
    have h1 := (sep_eq ha ha1 h0).1
    subst h1
    exact ⟨rfl, sprintfKey_eq_iff_same.mp h⟩
  · rintro ⟨rfl, rfl, rfl⟩
    rfl

theorem sprintfKey_length (a b : GoString) (n : Nat) :
    (sprintfKey a n b).length = a.length + (fmt04x n).length + 2 + b.length := by
  simp only [sprintfKey, List.length_append, List.length_singleton]
  omega

theorem count_le_count_dropLast (l : GoString) (c : Byte) :
    l.count c ≤ l.dropLast.count c + 1 := by
  induction l using List.reverseRecOn with
  | nil => simp
  | append_singleton ys b _ =>
    rw [List.dropLast_concat, List.count_append]
    have : [b].count c ≤ 1 := by
      have := List.count_le_length c [b]
      simpa using this
    omega

theorem TrimSuffix_eq (dir : GoString) :
    TrimSuffix dir [slash] = if dir.getLast? = some slash then dir.dropLast else dir := by
  induction dir using List.reverseRecOn with
  | nil => rfl
  | append_singleton ys b _ =>
    by_cases hb : b = slash
    · subst hb
      rw [TrimSuffix_sep]
      simp
    · have h1 : HasSuffix (ys ++ [b]) [slash] = false := by
        simp [HasSuffix, hb]
      rw [TrimSuffix, h1]
      simp [hb]

theorem Split_of_IsDir (D : Path) (hD : D.IsDir = some true) : Split D.Path = (D.Path, []) := by
  obtain ⟨d, hd⟩ := (IsDir_iff D).mp hD
  rw [hd]
  exact Split_dir d

theorem Key_def (p : Path) :
    p.Key = sprintfKey p.Volume p.GetDepth (Split p.Path).1 := rfl

theorem SubdirsPrefix_def (p : Path) :
    p.SubdirsPrefix = sprintfKey p.Volume (p.GetDepth + 1) (Split p.Path).1 := rfl

/-! ## The claims -/

/-- C1 (counterexample): the file `/f` of volume `v` has the root directory
`/` as its ParentDir, but its key `v:0000:/` is not the root's
`SubdirsPrefix`, which is `v:0001:/`. -/
theorem C1_counterexample :
    (Path.mk (ascii "v") (ascii "/")).IsDir = some true ∧
    (Path.mk (ascii "v") (ascii "/f")).Volume = (Path.mk (ascii "v") (ascii "/")).Volume ∧
    (Split (Path.mk (ascii "v") (ascii "/f")).Path).1 = (Path.mk (ascii "v") (ascii "/")).Path ∧
    (Path.mk (ascii "v") (ascii "/f")).Key = ascii "v:0000:/" ∧
    (Path.mk (ascii "v") (ascii "/")).SubdirsPrefix = ascii "v:0001:/" ∧
    (Path.mk (ascii "v") (ascii "/f")).Key ≠ (Path.mk (ascii "v") (ascii "/")).SubdirsPrefix := by
  decide

/-- C1 (amended): for every directory path `D` and every path `c` of the same
volume whose ParentDir is `D`'s full path, the key of `c` is the key of `D`
itself, and it is never `D.SubdirsPrefix()`: the two differ in the depth
field. -/
theorem C1_child_key_eq_dir_key (D c : Path) (hD : D.IsDir = some true)
    (hv : c.Volume = D.Volume) (hp : (Split c.Path).1 = D.Path) :
    c.Key = D.Key ∧ c.Key ≠ D.SubdirsPrefix := by
  have hs : (Split c.Path).1 = (Split D.Path).1 := by rw [Split_of_IsDir D hD, hp]
  have hd : c.GetDepth = D.GetDepth := GetDepth_congr c D hs
  have hk : c.Key = D.Key := by rw [Key_def, Key_def, hv, hd, hs]
  refine ⟨hk, ?_⟩
  rw [hk, Key_def, SubdirsPrefix_def]
  intro h
  have := (sprintfKey_eq_iff_same.mp h).1
  omega

/-- C1 (witness): the amended claim at the directory `/a/` and its file
`/a/f`. -/
theorem C1_child_key_eq_dir_key_witness :
    (Path.mk (ascii "v") (ascii "/a/")).IsDir = some true ∧
    (Split (ascii "/a/f")).1 = ascii "/a/" ∧
    (Path.mk (ascii "v") (ascii "/a/f")).Key = (Path.mk (ascii "v") (ascii "/a/")).Key ∧
    (Path.mk (ascii "v") (ascii "/a/f")).Key ≠ (Path.mk (ascii "v") (ascii "/a/")).SubdirsPrefix :=
  ⟨by decide, by decide,
    C1_child_key_eq_dir_key (Path.mk (ascii "v") (ascii "/a/")) (Path.mk (ascii "v") (ascii "/a/f"))
      (by decide) rfl (by decide)⟩

/-- C2: for every directory path `D` and every path `c` of the same volume
with `GetDepth(c) > GetDepth(D) + 1`, `D.SubdirsPrefix()` is not a prefix of
`c.Key()`; and every `c` whose path is `D.Path` followed by two or more
further directory levels has such a depth. -/
theorem C2_deeper_descendant_not_prefixed (D c : Path) (hD : D.IsDir = some true)
    (hv : c.Volume = D.Volume) :
    (c.GetDepth > D.GetDepth + 1 → ¬ D.SubdirsPrefix <+: c.Key) ∧
    (∀ n1 n2 rest : GoString, c.Path = D.Path ++ n1 ++ [slash] ++ n2 ++ [slash] ++ rest →
      c.GetDepth > D.GetDepth + 1 ∧ ¬ D.SubdirsPrefix <+: c.Key) := by
  have main : c.GetDepth > D.GetDepth + 1 → ¬ D.SubdirsPrefix <+: c.Key := by
    intro hgt h
    rw [SubdirsPrefix_def, Key_def, hv] at h
    have := (sprintfKey_isPrefix h).1
    omega
  refine ⟨main, ?_⟩
  intro n1 n2 rest hc
  have hgt : c.GetDepth > D.GetDepth + 1 := by
    obtain ⟨d, hd⟩ := (IsDir_iff D).mp hD
    have hDd : D.GetDepth = d.count slash := by
      have := GetDepth_dir D.Volume d
      rw [← hd] at this
      exact this
    have e : c.Path = (d ++ [slash] ++ n1) ++ [slash] ++ (n2 ++ [slash] ++ rest) := by
      rw [hc, hd]
      simp
    have hs : (Split c.Path).1
        = d ++ [slash] ++ n1 ++ [slash] ++ n2 ++ [slash] ++ (Split rest).1 := by
      rw [e, Split_fst_sep_append, Split_fst_sep_append]
      simp
    have hcnt := count_le_count_dropLast (Split c.Path).1 slash
    rw [← GetDepth_eq_count] at hcnt
    have hge : d.count slash + 3 ≤ (Split c.Path).1.count slash := by
      rw [hs]
      simp only [List.count_append, List.count_singleton_self]
      omega
    omega
  exact ⟨hgt, main hgt⟩

/-- C2 (witness): the directory `/a/` and the path `/a/b/c/d`, two directory
levels further down. -/
theorem C2_deeper_descendant_not_prefixed_witness :
    (Path.mk (ascii "v") (ascii "/a/")).IsDir = some true ∧
    (Path.mk (ascii "v") (ascii "/a/b/c/d")).GetDepth
      > (Path.mk (ascii "v") (ascii "/a/")).GetDepth + 1 ∧
    ¬ (Path.mk (ascii "v") (ascii "/a/")).SubdirsPrefix
      <+: (Path.mk (ascii "v") (ascii "/a/b/c/d")).Key :=
  ⟨by decide, by decide,
    (C2_deeper_descendant_not_prefixed (Path.mk (ascii "v") (ascii "/a/"))
      (Path.mk (ascii "v") (ascii "/a/b/c/d")) (by decide) rfl).1 (by decide)⟩

/-- C3: for paths whose volume names contain no `':'`, the keys are equal if
and only if the volumes are equal and the directory parts of `path.Split` are
equal. -/
theorem C3_key_eq_iff (p q : Path) (hp : colon ∉ p.Volume) (hq : colon ∉ q.Volume) :
    p.Key = q.Key ↔ p.Volume = q.Volume ∧ (Split p.Path).1 = (Split q.Path).1 := by
  rw [Key_def, Key_def, sprintfKey_eq_iff hp hq]
  constructor
  · rintro ⟨h1, _, h3⟩
    exact ⟨h1, h3⟩
  · rintro ⟨h1, h3⟩
    exact ⟨h1, GetDepth_congr p q h3, h3⟩

/-- C3 (witness): two files of the directory `/a/` of volume `v`. -/
theorem C3_key_eq_iff_witness :
    colon ∉ (Path.mk (ascii "v") (ascii "/a/f")).Volume ∧
    colon ∉ (Path.mk (ascii "v") (ascii "/a/g")).Volume ∧
    ((Path.mk (ascii "v") (ascii "/a/f")).Key = (Path.mk (ascii "v") (ascii "/a/g")).Key ↔
      (Path.mk (ascii "v") (ascii "/a/f")).Volume = (Path.mk (ascii "v") (ascii "/a/g")).Volume ∧
      (Split (Path.mk (ascii "v") (ascii "/a/f")).Path).1
        = (Split (Path.mk (ascii "v") (ascii "/a/g")).Path).1) :=
  ⟨by decide, by decide,
    C3_key_eq_iff (Path.mk (ascii "v") (ascii "/a/f")) (Path.mk (ascii "v") (ascii "/a/g"))
      (by decide) (by decide)⟩

/-- C4: the key of every path is the volume, `':'`, the lowercase hexadecimal
numeral of the depth left-padded with `'0'` to at least four digits, `':'`,
and the path up to and including its last `'/'`; the key of the root path of
a volume `v` is `v` followed by `:0000:/`. -/
theorem C4_key_format (p : Path) :
    p.Key = p.Volume ++ [colon] ++ hex04 p.GetDepth ++ [colon] ++ ParentDir p.Path ∧
    ∀ v : GoString, (Path.mk v [slash]).Key = v ++ ascii ":0000:/" := by
  constructor
  · rw [Key_def, sprintfKey, fmt04x_eq, Split_fst_eq_ParentDir]
  · intro v
    have h1 : Split [slash] = ([slash], []) := by decide
    have h2 : (Path.mk v [slash]).GetDepth = 0 := by
      have := GetDepth_dir v []
      simpa using this
    have h3 : fmt04x 0 = ascii "0000" := by decide
    have h4 : ascii ":0000:/" = [colon] ++ ascii "0000" ++ [colon] ++ [slash] := by decide
    rw [Key_def, h2, sprintfKey, h3, h4]
    simp [h1]

/-- C5: the depth of every path is the number of separators in its directory
part after removing one trailing separator; the general counting formula of
the code gives this value at every path, the root included, where it is 0 like
the special case. -/
theorem C5_depth_counts_separators (p : Path) :
    p.GetDepth = countSeparators (Split p.Path).1 ∧
    p.GetDepth = Count (TrimSuffix (Split p.Path).1 [slash]) slash ∧
    Count (TrimSuffix [slash] [slash]) slash = 0 ∧
    ∀ v : GoString, (Path.mk v [slash]).GetDepth = 0 := by
  have hgen : p.GetDepth = Count (TrimSuffix (Split p.Path).1 [slash]) slash := by
    show (if (Split p.Path).1 = [slash] then 0
      else Count (TrimSuffix (Split p.Path).1 [slash]) slash) = _
    split
    · next h => rw [h]; rfl
    · rfl
  refine ⟨?_, hgen, by decide, ?_⟩
  · rw [hgen, TrimSuffix_eq]
    rfl
  · intro v
    have := GetDepth_dir v []
    simpa using this

/-- C6 (counterexample): the directory `/a/` lies directly under the volume
root, and its depth is 1, not 0. -/
theorem C6_counterexample :
    ascii "a" ≠ [] ∧ slash ∉ ascii "a" ∧
    (Path.mk (ascii "v") ([slash] ++ ascii "a" ++ [slash])).GetDepth = 1 ∧
    (Path.mk (ascii "v") ([slash] ++ ascii "a" ++ [slash])).GetDepth ≠ 0 := by
  decide

/-- C6 (amended): for every name containing no `'/'`, the file `/name`
directly under the volume root has depth 0 and the directory `/name/` directly
under the volume root has depth 1. -/
theorem C6_depth_under_root (v name : GoString) (hn : slash ∉ name) :
    (Path.mk v ([slash] ++ name)).GetDepth = 0 ∧
    (Path.mk v ([slash] ++ name ++ [slash])).GetDepth = 1 := by
  constructor
  · rw [GetDepth_eq_count]
    have := Split_dir_append [] name hn
    simp only [List.nil_append] at this
    rw [this]
    rfl
  · rw [GetDepth_dir, List.count_append, List.count_singleton_self,
      List.count_eq_zero_of_not_mem hn]

/-- C6 (witness): the file `/a` and the directory `/a/`. -/
theorem C6_depth_under_root_witness :
    slash ∉ ascii "a" ∧
    (Path.mk (ascii "v") ([slash] ++ ascii "a")).GetDepth = 0 ∧
    (Path.mk (ascii "v") ([slash] ++ ascii "a" ++ [slash])).GetDepth = 1 :=
  ⟨by decide, C6_depth_under_root (ascii "v") (ascii "a") (by decide)⟩

/-- C7: for every directory path `D` and every path of the same volume whose
ParentDir differs from `D`'s full path, the key of that path differs from
`D.SubdirsPrefix()`. -/
theorem C7_non_child_key_differs (D c : Path) (hD : D.IsDir = some true)
    (hv : c.Volume = D.Volume) (hne : (Split c.Path).1 ≠ D.Path) :
    c.Key ≠ D.SubdirsPrefix := by
  intro h
  rw [Key_def, SubdirsPrefix_def, hv, Split_of_IsDir D hD] at h
  exact hne (sprintfKey_eq_iff_same.mp h).2

/-- C7 (witness): the directory `/a/` and the file `/b/f` of another
directory. -/
theorem C7_non_child_key_differs_witness :
    (Path.mk (ascii "v") (ascii "/a/")).IsDir = some true ∧
    (Split (Path.mk (ascii "v") (ascii "/b/f")).Path).1 ≠ (Path.mk (ascii "v") (ascii "/a/")).Path ∧
    (Path.mk (ascii "v") (ascii "/b/f")).Key ≠ (Path.mk (ascii "v") (ascii "/a/")).SubdirsPrefix :=
  ⟨by decide, by decide,
    C7_non_child_key_differs (Path.mk (ascii "v") (ascii "/a/"))
      (Path.mk (ascii "v") (ascii "/b/f")) (by decide) rfl (by decide)⟩

/-- C8: for every directory path `D` and every non-empty file name `n`
without `'/'`, the file path `D.Path ++ n` of the same volume has the key of
`D` itself. -/
theorem C8_file_key_eq_dir_key (D : Path) (n : GoString) (hD : D.IsDir = some true)
    (_hn : n ≠ []) (hs : slash ∉ n) :
    (Path.mk D.Volume (D.Path ++ n)).Key = D.Key := by
  obtain ⟨d, hd⟩ := (IsDir_iff D).mp hD
  have h1 : (Split (D.Path ++ n)).1 = (Split D.Path).1 := by
    rw [hd, Split_dir_append d n hs, Split_dir]
  have h2 : (Path.mk D.Volume (D.Path ++ n)).GetDepth = D.GetDepth :=
    GetDepth_congr _ _ h1
  rw [Key_def, Key_def, h2]
  exact congrArg _ h1

/-- C8 (witness): the directory `/a/b/` and its file `/a/b/file`. -/
theorem C8_file_key_eq_dir_key_witness :
    (Path.mk (ascii "v") (ascii "/a/b/")).IsDir = some true ∧
    ascii "file" ≠ [] ∧ slash ∉ ascii "file" ∧
    (Path.mk (Path.mk (ascii "v") (ascii "/a/b/")).Volume
      ((Path.mk (ascii "v") (ascii "/a/b/")).Path ++ ascii "file")).Key
      = (Path.mk (ascii "v") (ascii "/a/b/")).Key :=
  ⟨by decide, by decide, by decide,
    C8_file_key_eq_dir_key (Path.mk (ascii "v") (ascii "/a/b/")) (ascii "file")
      (by decide) (by decide) (by decide)⟩

/-- C9 (counterexample): the file `/a` of volume `v` is not the root, neither
the volume name nor the path contains `':'`, and yet its key is the key of the
root, `v:0000:/`. -/
theorem C9_counterexample :
    colon ∉ ascii "v" ∧ colon ∉ ascii "/a" ∧ ascii "/a" ≠ ascii "/" ∧
    (Path.mk (ascii "v") (ascii "/a")).Key = ascii "v:0000:/" ∧
    (Path.mk (ascii "v") (ascii "/a")).Key = (Path.mk (ascii "v") (ascii "/")).Key := by
  decide

/-- C9 (amended): within a volume, the key of a path is the key of the root
exactly when the ParentDir of the path is `/`, that is when the path is the
root or names a file directly under it; in particular every directory path
other than the root has a key different from the root's. -/
theorem C9_root_key_iff (v s : GoString) :
    ((Path.mk v s).Key = (Path.mk v [slash]).Key ↔ (Split s).1 = [slash]) ∧
    ((∃ d, d ≠ [] ∧ s = d ++ [slash]) → (Path.mk v s).Key ≠ (Path.mk v [slash]).Key) := by
  have h1 : Split [slash] = ([slash], []) := by decide
  have hiff : (Path.mk v s).Key = (Path.mk v [slash]).Key ↔ (Split s).1 = [slash] := by
    rw [Key_def, Key_def, sprintfKey_eq_iff_same]
    simp only [h1]
    constructor
    · exact fun h => h.2
    · intro h
      exact ⟨GetDepth_congr _ _ (by simp only [h, h1]), h⟩
  refine ⟨hiff, ?_⟩
  rintro ⟨d, hd, rfl⟩ h
  rw [hiff, Split_dir] at h
  cases d with
  | nil => exact hd rfl
  | cons x xs => simp at h

/-- C9 (witness): the directory `/a/` of volume `v`. -/
theorem C9_root_key_iff_witness :
    (∃ d, d ≠ [] ∧ ascii "/a/" = d ++ [slash]) ∧
    (Path.mk (ascii "v") (ascii "/a/")).Key ≠ (Path.mk (ascii "v") [slash]).Key :=
  ⟨⟨ascii "/a", by decide, by decide⟩,
    (C9_root_key_iff (ascii "v") (ascii "/a/")).2 ⟨ascii "/a", by decide, by decide⟩⟩

/-- C10 (counterexample): for the directory path made of 65537 separators the
depth is 65536, `%04x` writes the five digits `10000`, and the key is one byte
longer than the volume, six bytes and the ParentDir. -/
theorem C10_counterexample :
    deepPath.GetDepth = 65536 ∧ fmt04x deepPath.GetDepth = ascii "10000" ∧
    deepPath.Key.length ≠ deepPath.Volume.length + 6 + (Split deepPath.Path).1.length := by
  have e : deepPath.Path = List.replicate 65536 slash ++ [slash] := rfl
  have hd : deepPath.GetDepth = 65536 := by
    have := GetDepth_dir [] (List.replicate 65536 slash)
    rw [List.count_replicate_self] at this
    exact this
  have hf : fmt04x 65536 = ascii "10000" := by decide
  have hs : (Split deepPath.Path).1.length = 65537 := by
    rw [e, Split_dir, List.length_append, List.length_replicate]
    rfl
  have hv : deepPath.Volume.length = 0 := rfl
  have hl : (ascii "10000").length = 5 := by decide
  refine ⟨hd, by rw [hd, hf], ?_⟩
  rw [Key_def, sprintfKey_length, hd, hf, hs, hv, hl]
  omega

/-- C10 (amended): the depth field that `Key` and `SubdirsPrefix` place
between the volume and the ParentDir consists of hexadecimal digits and has at
least four of them; it has exactly four, and the length is that of the volume
plus 6 plus that of the ParentDir, exactly when the depth is below 65536 for
`Key` and below 65535 for `SubdirsPrefix`. -/
theorem C10_depth_field_width (p : Path) :
    (p.Key = p.Volume ++ [colon] ++ fmt04x p.GetDepth ++ [colon] ++ (Split p.Path).1 ∧
      (∀ b ∈ fmt04x p.GetDepth, isHexDigit b = true) ∧
      4 ≤ (fmt04x p.GetDepth).length ∧
      ((fmt04x p.GetDepth).length = 4 ↔ p.GetDepth < 65536) ∧
      (p.Key.length = p.Volume.length + 6 + (Split p.Path).1.length ↔ p.GetDepth < 65536)) ∧
    (p.SubdirsPrefix
        = p.Volume ++ [colon] ++ fmt04x (p.GetDepth + 1) ++ [colon] ++ (Split p.Path).1 ∧
      (∀ b ∈ fmt04x (p.GetDepth + 1), isHexDigit b = true) ∧
      4 ≤ (fmt04x (p.GetDepth + 1)).length ∧
      ((fmt04x (p.GetDepth + 1)).length = 4 ↔ p.GetDepth < 65535) ∧
      (p.SubdirsPrefix.length = p.Volume.length + 6 + (Split p.Path).1.length
        ↔ p.GetDepth < 65535)) := by
  have key : ∀ n : Nat,
      (sprintfKey p.Volume n (Split p.Path).1).length
        = p.Volume.length + 6 + (Split p.Path).1.length ↔ n < 65536 := by
    intro n
    rw [sprintfKey_length, ← fmt04x_length_eq_four]
    omega
  refine ⟨⟨rfl, fmt04x_isHexDigit _, fmt04x_length_ge _, fmt04x_length_eq_four _, ?_⟩,
    ⟨rfl, fmt04x_isHexDigit _, fmt04x_length_ge _, ?_, ?_⟩⟩
  · rw [Key_def]
    exact key _
  · rw [fmt04x_length_eq_four]
    omega
  · rw [SubdirsPrefix_def, key]
    omega

/-- C11: `IsDir` never indexes out of bounds and so always returns a value;
it returns true if and only if the path string is non-empty and its last byte
is `'/'`, and it returns false on the empty path string. -/
theorem C11_IsDir_total (p : Path) :
    p.IsDir = some (decide (p.Path ≠ [] ∧ p.Path.getLast? = some slash)) ∧
    (p.IsDir = some true ↔ p.Path ≠ [] ∧ p.Path.getLast? = some slash) ∧
    p.IsDir ≠ none ∧
    ∀ v : GoString, (Path.mk v []).IsDir = some false := by
  have h1 : p.IsDir = some (decide (p.Path ≠ [] ∧ p.Path.getLast? = some slash)) := by
    unfold Path.IsDir byteAt
    by_cases hne : p.Path = []
    · simp [hne]
    · have hl : p.Path.length ≠ 0 := fun e => hne (List.length_eq_zero.mp e)
      rw [if_neg hl, List.get?_eq_getElem?, ← List.getLast?_eq_getElem?,
        List.getLast?_eq_getLast _ hne]
      simp only [Option.map_some', ne_eq, hne, not_false_eq_true, Option.some.injEq, true_and]
      rfl
  refine ⟨h1, ?_, ?_, fun v => rfl⟩
  · rw [h1]
    simp
  · rw [h1]
    simp

/-- C12: the file name of every path contains no `'/'`, the directory part
used by `Key` followed by the file name is the path, the file name is the
trailing path component, and the file name of the volume root is empty. -/
theorem C12_Filename_is_last_component (p : Path) :
    slash ∉ p.Filename ∧
    (Split p.Path).1 ++ p.Filename = p.Path ∧
    ParentDir p.Path ++ p.Filename = p.Path ∧
    p.Filename = lastComponent p.Path ∧
    ∀ v : GoString, (Path.mk v [slash]).Filename = [] := by
  have h2 : (Split p.Path).1 ++ p.Filename = p.Path := Split_append p.Path
  have h3 : ParentDir p.Path ++ p.Filename = p.Path := by
    rw [← Split_fst_eq_ParentDir]
    exact h2
  have h5 : (Split [slash]).2 = [] := by decide
  refine ⟨Split_snd_not_mem p.Path, h2, h3, ?_, fun _ => h5⟩
  have h4 : ParentDir p.Path ++ lastComponent p.Path = p.Path := by
    have := congrArg List.reverse
      (List.takeWhile_append_dropWhile (fun b => b != slash) p.Path.reverse)
    rw [List.reverse_append, List.reverse_reverse] at this
    exact this
  exact List.append_cancel_left (h3.trans h4.symm)

/-- C16: for directory paths `D` and `c` of the same volume,
`D.SubdirsPrefix()` is a prefix of `c.Key()` if and only if the path of `c` is
the path of `D` followed by one name without `'/'` and a `'/'`; it is never a
prefix of the key of `D` itself. -/
theorem C16_subdirs_scan_exact (D c : Path) (hD : D.IsDir = some true)
    (hc : c.IsDir = some true) (hv : c.Volume = D.Volume) :
    (D.SubdirsPrefix <+: c.Key ↔ ∃ n, slash ∉ n ∧ c.Path = D.Path ++ n ++ [slash]) ∧
    ¬ D.SubdirsPrefix <+: D.Key := by
  obtain ⟨d, hd⟩ := (IsDir_iff D).mp hD
  have hDd : D.GetDepth = d.count slash := by
    have := GetDepth_dir D.Volume d
    rw [← hd] at this
    exact this
  have hself : ¬ D.SubdirsPrefix <+: D.Key := by
    intro h
    rw [SubdirsPrefix_def, Key_def] at h
    have := (sprintfKey_isPrefix h).1
    omega
  refine ⟨?_, hself⟩
  constructor
  · intro h
    obtain ⟨e, he⟩ := (IsDir_iff c).mp hc
    have hce : c.GetDepth = e.count slash := by
      have := GetDepth_dir c.Volume e
      rw [← he] at this
      exact this
    rw [SubdirsPrefix_def, Key_def, hv, Split_of_IsDir D hD, Split_of_IsDir c hc] at h
    dsimp only at h
    obtain ⟨hdep, r, hr⟩ := sprintfKey_isPrefix h
    have hcount : c.Path.count slash = D.Path.count slash + r.count slash := by
      rw [← hr, List.count_append]
    rw [he, hd, List.count_append, List.count_append, List.count_singleton_self] at hcount
    have hr1 : r.count slash = 1 := by omega
    have hrne : r ≠ [] := by
      intro h0
      rw [h0] at hr1
      simp at hr1
    have hlast : r.getLast hrne = slash := by
      have h1 : c.Path.getLast? = some slash := by rw [he]; simp
      rw [← hr, List.getLast?_append_of_ne_nil _ hrne, List.getLast?_eq_getLast _ hrne] at h1
      exact Option.some.inj h1
    have hrsplit : r = r.dropLast ++ [slash] := by
      conv_lhs => rw [← List.dropLast_append_getLast hrne]
      rw [hlast]
    refine ⟨r.dropLast, ?_, ?_⟩
    · rw [hrsplit, List.count_append, List.count_singleton_self] at hr1
      exact List.count_eq_zero.mp (by omega)
    · rw [← hr]
      conv_lhs => rw [hrsplit]
      simp
  · rintro ⟨n, hn, hp⟩
    have hcd : c.GetDepth = D.GetDepth + 1 := by
      have := GetDepth_dir c.Volume (D.Path ++ n)
      rw [← hp] at this
      rw [this, hDd, hd, List.count_append, List.count_append, List.count_singleton_self,
        List.count_eq_zero_of_not_mem hn]
    rw [SubdirsPrefix_def, Key_def, hv, Split_of_IsDir D hD, Split_of_IsDir c hc, hcd, hp]
    refine ⟨n ++ [slash], ?_⟩
    simp [sprintfKey]

/-- C16 (witness): the directory `/a/` and its subdirectory `/a/b/`. -/
theorem C16_subdirs_scan_exact_witness :
    (Path.mk (ascii "v") (ascii "/a/")).IsDir = some true ∧
    (Path.mk (ascii "v") (ascii "/a/b/")).IsDir = some true ∧
    ((Path.mk (ascii "v") (ascii "/a/")).SubdirsPrefix <+: (Path.mk (ascii "v") (ascii "/a/b/")).Key
      ↔ ∃ n, slash ∉ n ∧
        (Path.mk (ascii "v") (ascii "/a/b/")).Path
          = (Path.mk (ascii "v") (ascii "/a/")).Path ++ n ++ [slash]) ∧
    ¬ (Path.mk (ascii "v") (ascii "/a/")).SubdirsPrefix <+: (Path.mk (ascii "v") (ascii "/a/")).Key :=
  ⟨by decide, by decide,
    C16_subdirs_scan_exact (Path.mk (ascii "v") (ascii "/a/")) (Path.mk (ascii "v") (ascii "/a/b/"))
      (by decide) (by decide) rfl⟩

/-- C17: for every directory path `D` and every name `n` without `'/'`, the
subdirectory `D.Path ++ n ++ "/"` has the depth of `D` plus one, and for
non-empty `n` the file `D.Path ++ n` has the depth of `D`. -/
theorem C17_depth_grows_by_one (D : Path) (n : GoString) (hD : D.IsDir = some true)
    (hn : slash ∉ n) :
    (Path.mk D.Volume (D.Path ++ n ++ [slash])).GetDepth = D.GetDepth + 1 ∧
    (n ≠ [] → (Path.mk D.Volume (D.Path ++ n)).GetDepth = D.GetDepth) := by
  obtain ⟨d, hd⟩ := (IsDir_iff D).mp hD
  have hDd : D.GetDepth = d.count slash := by
    have := GetDepth_dir D.Volume d
    rw [← hd] at this
    exact this
  constructor
  · rw [GetDepth_dir, hDd, hd, List.count_append, List.count_append,
      List.count_singleton_self, List.count_eq_zero_of_not_mem hn]
  · intro _
    apply GetDepth_congr
    show (Split (D.Path ++ n)).1 = (Split D.Path).1
    rw [hd, Split_dir_append d n hn, Split_dir]

/-- C17 (witness): the directory `/a/`, its subdirectory `/a/b/` and its file
`/a/b`. -/
theorem C17_depth_grows_by_one_witness :
    (Path.mk (ascii "v") (ascii "/a/")).IsDir = some true ∧ slash ∉ ascii "b" ∧
    (Path.mk (Path.mk (ascii "v") (ascii "/a/")).Volume
      ((Path.mk (ascii "v") (ascii "/a/")).Path ++ ascii "b" ++ [slash])).GetDepth
      = (Path.mk (ascii "v") (ascii "/a/")).GetDepth + 1 ∧
    (Path.mk (Path.mk (ascii "v") (ascii "/a/")).Volume
      ((Path.mk (ascii "v") (ascii "/a/")).Path ++ ascii "b")).GetDepth
      = (Path.mk (ascii "v") (ascii "/a/")).GetDepth :=
  ⟨by decide, by decide,
    (C17_depth_grows_by_one (Path.mk (ascii "v") (ascii "/a/")) (ascii "b")
      (by decide) (by decide)).1,
    (C17_depth_grows_by_one (Path.mk (ascii "v") (ascii "/a/")) (ascii "b")
      (by decide) (by decide)).2 (by decide)⟩

/-! ### The order of keys -/

theorem strLess_append_left (x a b : GoString) : strLess (x ++ a) (x ++ b) = strLess a b := by
  induction x with
  | nil => rfl
  | cons c x ih =>
    rw [List.cons_append, List.cons_append, strLess, if_neg (lt_irrefl c), if_neg (lt_irrefl c)]
    exact ih

theorem strLess_append_of_length_eq : ∀ (h1 h2 r1 r2 : GoString), h1.length = h2.length →
    strLess h1 h2 = true → strLess (h1 ++ r1) (h2 ++ r2) = true := by
  intro h1
  induction h1 with
  | nil =>
    intro h2 r1 r2 hl hs
    cases h2 with
    | nil => simp [strLess] at hs
    | cons b bs => simp at hl
  | cons a as ih =>
    intro h2 r1 r2 hl hs
    cases h2 with
    | nil => simp at hl
    | cons b bs =>
      rw [strLess] at hs
      rw [List.cons_append, List.cons_append, strLess]
      by_cases hab : a < b
      · rw [if_pos hab]
      · rw [if_neg hab] at hs ⊢
        by_cases hba : b < a
        · rw [if_pos hba] at hs
          exact absurd hs (by simp)
        · rw [if_neg hba] at hs ⊢
          exact ih bs r1 r2 (by simpa using hl) hs

/-- The comparison `strLess` is the lexicographic order of lists. -/
theorem strLess_iff_lt : ∀ (a b : GoString), strLess a b = true ↔ List.lt a b := by
  intro a
  induction a with
  | nil =>
    intro b
    cases b with
    | nil =>
      constructor
      · intro h
        simp [strLess] at h
      · intro h
        cases h
    | cons y ys =>
      constructor
      · intro _
        exact List.lt.nil y ys
      · intro _
        rfl
  | cons x xs ih =>
    intro b
    cases b with
    | nil =>
      constructor
      · intro h
        simp [strLess] at h
      · intro h
        cases h
    | cons y ys =>
      rw [strLess]
      by_cases hxy : x < y
      · rw [if_pos hxy]
        exact ⟨fun _ => List.lt.head xs ys hxy, fun _ => rfl⟩
      · rw [if_neg hxy]
        by_cases hyx : y < x
        · rw [if_pos hyx]
          constructor
          · intro h
            exact absurd h (by simp)
          · intro h
            cases h with
            | head _ _ h1 => exact absurd h1 hxy
            | tail _ h2 _ => exact absurd hyx h2
        · rw [if_neg hyx, ih ys]
          constructor
          · intro h
            exact List.lt.tail hxy hyx h
          · intro h
            cases h with
            | head _ _ h1 => exact absurd h1 hxy
            | tail _ _ h3 => exact h3

theorem lowerHexDigit_val (x : Nat) (h : x < 16) :
    (lowerHexDigit x).val = if x < 10 then 48 + x else 87 + x := by
  interval_cases x <;> rfl

theorem lowerHexDigit_lt_iff (x y : Nat) (hx : x < 16) (hy : y < 16) :
    lowerHexDigit x < lowerHexDigit y ↔ x < y := by
  rw [Fin.lt_def, lowerHexDigit_val x hx, lowerHexDigit_val y hy]
  split <;> split <;> omega

/-- Below 65536 the verb `%04x` writes the four base-16 digits of the
number. -/
theorem fmt04x_of_lt (n : Nat) (h : n < 65536) :
    fmt04x n = [lowerHexDigit (n / 4096), lowerHexDigit (n / 256 % 16),
      lowerHexDigit (n / 16 % 16), lowerHexDigit (n % 16)] := by
  have hz : zero = lowerHexDigit 0 := rfl
  rw [fmt04x, zeroPad, hexDigits_eq]
  by_cases h1 : n < 16
  · rw [hexNumeral_of_lt n h1]
    have e1 : n / 4096 = 0 := by omega
    have e2 : n / 256 % 16 = 0 := by omega
    have e3 : n / 16 % 16 = 0 := by omega
    have e4 : n % 16 = n := by omega
    rw [e1, e2, e3, e4, ← hz]
    rfl
  · by_cases h2 : n < 256
    · rw [hexNumeral_step n (by omega), hexNumeral_of_lt (n / 16) (by omega)]
      have e1 : n / 4096 = 0 := by omega
      have e2 : n / 256 % 16 = 0 := by omega
      have e3 : n / 16 % 16 = n / 16 := by omega
      rw [e1, e2, e3, ← hz]
      rfl
    · by_cases h3 : n < 4096
      · rw [hexNumeral_step n (by omega), hexNumeral_step (n / 16) (by omega),
          hexNumeral_of_lt (n / 16 / 16) (by omega)]
        have e1 : n / 4096 = 0 := by omega
        have e2 : n / 256 % 16 = n / 16 / 16 := by omega
        rw [e1, e2, ← hz]
        rfl
      · rw [hexNumeral_step n (by omega), hexNumeral_step (n / 16) (by omega),
          hexNumeral_step (n / 16 / 16) (by omega),
          hexNumeral_of_lt (n / 16 / 16 / 16) (by omega)]
        have e1 : n / 4096 = n / 16 / 16 / 16 := by omega
        have e2 : n / 256 % 16 = n / 16 / 16 % 16 := by omega
        rw [e1, e2]
        rfl

/-- Below 65536 the text `%04x` writes orders like the number. -/
theorem fmt04x_strLess (a b : Nat) (hab : a < b) (hb : b < 65536) :
    strLess (fmt04x a) (fmt04x b) = true := by
  rw [fmt04x_of_lt a (by omega), fmt04x_of_lt b hb]
  have ha3 : a / 4096 < 16 := by omega
  have ha2 : a / 256 % 16 < 16 := by omega
  have ha1 : a / 16 % 16 < 16 := by omega
  have ha0 : a % 16 < 16 := by omega
  have hb3 : b / 4096 < 16 := by omega
  have hb2 : b / 256 % 16 < 16 := by omega
  have hb1 : b / 16 % 16 < 16 := by omega
  have hb0 : b % 16 < 16 := by omega
  simp only [strLess, lowerHexDigit_lt_iff _ _ ha3 hb3, lowerHexDigit_lt_iff _ _ hb3 ha3,
    lowerHexDigit_lt_iff _ _ ha2 hb2, lowerHexDigit_lt_iff _ _ hb2 ha2,
    lowerHexDigit_lt_iff _ _ ha1 hb1, lowerHexDigit_lt_iff _ _ hb1 ha1,
    lowerHexDigit_lt_iff _ _ ha0 hb0, lowerHexDigit_lt_iff _ _ hb0 ha0]
  split_ifs <;> first | rfl | omega

/-- C18: for paths of the same volume with `GetDepth(p) < GetDepth(q) < 65536`
the key of `p` is strictly less than the key of `q` in byte-wise
lexicographic order. -/
theorem C18_keys_sort_by_depth (p q : Path) (hv : p.Volume = q.Volume)
    (hpq : p.GetDepth < q.GetDepth) (hq : q.GetDepth < 65536) :
    strLess p.Key q.Key = true ∧ List.lt p.Key q.Key := by
  have h : strLess p.Key q.Key = true := by
    rw [Key_def, Key_def, hv, sprintfKey_unfold, sprintfKey_unfold, strLess_append_left,
      strLess, if_neg (lt_irrefl colon), if_neg (lt_irrefl colon)]
    apply strLess_append_of_length_eq
    · rw [(fmt04x_length_eq_four _).mpr hq, (fmt04x_length_eq_four _).mpr (by omega)]
    · exact fmt04x_strLess _ _ hpq hq
  exact ⟨h, (strLess_iff_lt _ _).mp h⟩

/-- C18 (witness): the file `/z` at depth 0 and the file `/a/b` at depth 1. -/
theorem C18_keys_sort_by_depth_witness :
    (Path.mk (ascii "v") (ascii "/z")).GetDepth < (Path.mk (ascii "v") (ascii "/a/b")).GetDepth ∧
    (Path.mk (ascii "v") (ascii "/a/b")).GetDepth < 65536 ∧
    strLess (Path.mk (ascii "v") (ascii "/z")).Key (Path.mk (ascii "v") (ascii "/a/b")).Key = true ∧
    List.lt (Path.mk (ascii "v") (ascii "/z")).Key (Path.mk (ascii "v") (ascii "/a/b")).Key :=
  ⟨by decide, by decide,
    C18_keys_sort_by_depth (Path.mk (ascii "v") (ascii "/z")) (Path.mk (ascii "v") (ascii "/a/b"))
      rfl (by decide) (by decide)⟩

/-! ### The registry -/

theorem Register_of_absent {Config Service Err W : Type} (m : ServiceMap Config Service Err W)
    (name : GoString) (f : CreateMetadataServiceFunc Config Service Err W)
    (h : (mapIndex m name).2 = false) :
    (RegisterMetadataService m name f).2 = Outcome.returned ∧
    mapIndex (RegisterMetadataService m name f).1 name = (f, true) ∧
    ∀ other, other ≠ name →
      mapIndex (RegisterMetadataService m name f).1 other = mapIndex m other := by
  cases m with
  | none =>
    refine ⟨rfl, ?_, ?_⟩
    · simp [RegisterMetadataService, makeMap, mapIndex, mapAssign]
    · intro other ho
      simp [RegisterMetadataService, makeMap, mapIndex, mapAssign, ho]
  | some g =>
    have hg : g name = none := by
      cases hgn : g name with
      | none => rfl
      | some v => simp [mapIndex, hgn] at h
    refine ⟨?_, ?_, ?_⟩
    · simp [RegisterMetadataService, mapIndex, mapAssign, hg]
    · simp [RegisterMetadataService, mapIndex, mapAssign, hg]
    · intro other ho
      simp [RegisterMetadataService, mapIndex, mapAssign, hg, ho]

theorem Register_of_present {Config Service Err W : Type} (m : ServiceMap Config Service Err W)
    (name : GoString) (f : CreateMetadataServiceFunc Config Service Err W)
    (h : (mapIndex m name).2 = true) :
    RegisterMetadataService m name f = (m, Outcome.panicked
      (ascii "agro: attempted to register MetadataService " ++ name ++ ascii " twice")) := by
  cases m with
  | none => simp [mapIndex] at h
  | some g =>
    have e : (if (some g : ServiceMap Config Service Err W).isNone then makeMap else some g)
        = some g := rfl
    simp only [RegisterMetadataService, e, h, if_true]

theorem Register_keeps_binding {Config Service Err W : Type}
    (m : ServiceMap Config Service Err W) (name n : GoString)
    (g f : CreateMetadataServiceFunc Config Service Err W)
    (h : mapIndex m name = (g, true)) :
    mapIndex (RegisterMetadataService m n f).1 name = (g, true) := by
  cases hn : (mapIndex m n).2 with
  | true => rw [Register_of_present m n f hn]; exact h
  | false =>
    have hne : name ≠ n := by
      rintro rfl
      rw [h] at hn
      simp at hn
    rw [(Register_of_absent m n f hn).2.2 name hne]
    exact h

/-- C13: for every state of the registry, the nil map included, every name
and every constructor, `RegisterMetadataService` panics if and only if the
name is already registered; otherwise it returns and the name is bound to the
constructor afterwards. -/
theorem C13_register_panics_iff_registered {Config Service Err W : Type}
    (m : ServiceMap Config Service Err W) (name : GoString)
    (f : CreateMetadataServiceFunc Config Service Err W) :
    ((∃ msg, (RegisterMetadataService m name f).2 = Outcome.panicked msg)
      ↔ (mapIndex m name).2 = true) ∧
    ((mapIndex m name).2 = false →
      (RegisterMetadataService m name f).2 = Outcome.returned ∧
      mapIndex (RegisterMetadataService m name f).1 name = (f, true)) := by
  constructor
  · constructor
    · rintro ⟨msg, hmsg⟩
      cases hn : (mapIndex m name).2 with
      | true => rfl
      | false =>
        rw [(Register_of_absent m name f hn).1] at hmsg
        cases hmsg
    · intro h
      rw [Register_of_present m name f h]
      exact ⟨_, rfl⟩
  · intro h
    exact ⟨(Register_of_absent m name f h).1, (Register_of_absent m name f h).2.1⟩

/-- C13 (witness): the first registration, under the name `etcd` in the nil
map. -/
theorem C13_register_panics_iff_registered_witness :
    (mapIndex (none : ServiceMap Unit Nat Nat Nat) (ascii "etcd")).2 = false ∧
    (RegisterMetadataService (none : ServiceMap Unit Nat Nat Nat) (ascii "etcd")
      (some sampleCtor)).2 = Outcome.returned ∧
    mapIndex (RegisterMetadataService (none : ServiceMap Unit Nat Nat Nat) (ascii "etcd")
      (some sampleCtor)).1 (ascii "etcd") = (some sampleCtor, true) :=
  ⟨rfl, (C13_register_panics_iff_registered (none : ServiceMap Unit Nat Nat Nat) (ascii "etcd")
    (some sampleCtor)).2 rfl⟩

/-- C14 (the code at the failing input): under a name that is not registered,
in the nil map and in a map where only `etcd` is registered,
`CreateMetadataService` calls a nil func and panics; it returns no error
value. -/
theorem C14_create_unregistered_panics (Config Service Err W : Type)
    (g : Config → W → (Service × Err) × W) (cfg : Config) (w : W) :
    (mapIndex (none : ServiceMap Config Service Err W) (ascii "nosuch")).2 = false ∧
    CreateMetadataService (none : ServiceMap Config Service Err W) (ascii "nosuch") cfg w
      = none ∧
    (mapIndex (RegisterMetadataService (none : ServiceMap Config Service Err W) (ascii "etcd")
      (some g)).1 (ascii "nosuch")).2 = false ∧
    CreateMetadataService
      (RegisterMetadataService (none : ServiceMap Config Service Err W) (ascii "etcd")
        (some g)).1 (ascii "nosuch") cfg w = none := by
  have hne : ascii "nosuch" ≠ ascii "etcd" := by decide
  have h := (Register_of_absent (none : ServiceMap Config Service Err W) (ascii "etcd")
    (some g) rfl).2.2 (ascii "nosuch") hne
  refine ⟨rfl, rfl, ?_, ?_⟩
  · rw [h]
    rfl
  · rw [CreateMetadataService, h]
    rfl

/-- C15: after `RegisterMetadataService(name, f)` has returned,
`CreateMetadataService(name, cfg)` is the call `f(cfg)`: for a constructor `g`
it returns the pair `g` returns, with the effect of one call of `g` on the
program state. -/
theorem C15_create_calls_registered {Config Service Err W : Type}
    (m : ServiceMap Config Service Err W) (name : GoString)
    (f : CreateMetadataServiceFunc Config Service Err W)
    (h : (RegisterMetadataService m name f).2 = Outcome.returned) (cfg : Config) (w : W) :
    CreateMetadataService (RegisterMetadataService m name f).1 name cfg w = callFunc f cfg w ∧
    ∀ g, f = some g →
      CreateMetadataService (RegisterMetadataService m name f).1 name cfg w
        = some (g cfg w) := by
  have habs : (mapIndex m name).2 = false := by
    cases hn : (mapIndex m name).2 with
    | false => rfl
    | true =>
      rw [Register_of_present m name f hn] at h
      cases h
  have h1 : CreateMetadataService (RegisterMetadataService m name f).1 name cfg w
      = callFunc f cfg w := by
    rw [CreateMetadataService, (Register_of_absent m name f habs).2.1]
  refine ⟨h1, ?_⟩
  rintro g rfl
  rw [h1]
  rfl

/-- C15 (witness): the sample constructor registered under `etcd` in the nil
map and created in the program state 0. -/
theorem C15_create_calls_registered_witness :
    (RegisterMetadataService (none : ServiceMap Unit Nat Nat Nat) (ascii "etcd")
      (some sampleCtor)).2 = Outcome.returned ∧
    CreateMetadataService
      (RegisterMetadataService (none : ServiceMap Unit Nat Nat Nat) (ascii "etcd")
        (some sampleCtor)).1 (ascii "etcd") () 0 = some ((7, 0), 1) :=
  ⟨rfl, (C15_create_calls_registered (none : ServiceMap Unit Nat Nat Nat) (ascii "etcd")
    (some sampleCtor) rfl () 0).2 sampleCtor rfl⟩

/-- C19: a call of `RegisterMetadataService` that returns leaves the binding
of every other name unchanged, a call that panics leaves the whole registry
unchanged, and through every sequence of calls a name that is bound keeps its
constructor. -/
theorem C19_binding_never_replaced {Config Service Err W : Type}
    (m : ServiceMap Config Service Err W) (name : GoString)
    (f : CreateMetadataServiceFunc Config Service Err W) :
    ((RegisterMetadataService m name f).2 = Outcome.returned →
      ∀ other, other ≠ name →
        mapIndex (RegisterMetadataService m name f).1 other = mapIndex m other) ∧
    ((RegisterMetadataService m name f).2 ≠ Outcome.returned →
      (RegisterMetadataService m name f).1 = m) ∧
    (∀ (g : CreateMetadataServiceFunc Config Service Err W)
        (calls : List (GoString × CreateMetadataServiceFunc Config Service Err W)),
      mapIndex m name = (g, true) → mapIndex (registerAll m calls) name = (g, true)) := by
  refine ⟨?_, ?_, ?_⟩
  · intro h other ho
    cases hn : (mapIndex m name).2 with
    | false => exact (Register_of_absent m name f hn).2.2 other ho
    | true =>
      rw [Register_of_present m name f hn] at h
      cases h
  · intro h
    cases hn : (mapIndex m name).2 with
    | false => exact absurd (Register_of_absent m name f hn).1 h
    | true => rw [Register_of_present m name f hn]
  · intro g calls
    induction calls generalizing m with
    | nil => exact fun h => h
    | cons c rest ih =>
      intro h
      exact ih (RegisterMetadataService m c.1 c.2).1
        (Register_keeps_binding m name c.1 g c.2 h)

/-- C19 (witness): `etcd` is registered in the nil map; `temp` stays unbound,
`etcd` keeps the sample constructor through a second registration of `etcd`
and a registration of `temp`, and the second registration of `etcd` panics and
leaves the registry as it was. -/
theorem C19_binding_never_replaced_witness :
    (RegisterMetadataService (none : ServiceMap Unit Nat Nat Nat) (ascii "etcd")
      (some sampleCtor)).2 = Outcome.returned ∧
    mapIndex (RegisterMetadataService (none : ServiceMap Unit Nat Nat Nat) (ascii "etcd")
      (some sampleCtor)).1 (ascii "temp")
      = mapIndex (none : ServiceMap Unit Nat Nat Nat) (ascii "temp") ∧
    mapIndex (registerAll
      (RegisterMetadataService (none : ServiceMap Unit Nat Nat Nat) (ascii "etcd")
        (some sampleCtor)).1
      [(ascii "etcd", none), (ascii "temp", some sampleCtor)]) (ascii "etcd")
      = (some sampleCtor, true) ∧
    (RegisterMetadataService
      (RegisterMetadataService (none : ServiceMap Unit Nat Nat Nat) (ascii "etcd")
        (some sampleCtor)).1 (ascii "etcd") none).2 ≠ Outcome.returned ∧
    (RegisterMetadataService
      (RegisterMetadataService (none : ServiceMap Unit Nat Nat Nat) (ascii "etcd")
        (some sampleCtor)).1 (ascii "etcd") none).1
      = (RegisterMetadataService (none : ServiceMap Unit Nat Nat Nat) (ascii "etcd")
        (some sampleCtor)).1 :=
  ⟨rfl,
    (C19_binding_never_replaced (none : ServiceMap Unit Nat Nat Nat) (ascii "etcd")
      (some sampleCtor)).1 rfl (ascii "temp") (by decide),
    (C19_binding_never_replaced
      (RegisterMetadataService (none : ServiceMap Unit Nat Nat Nat) (ascii "etcd")
        (some sampleCtor)).1 (ascii "etcd") none).2.2 (some sampleCtor)
      [(ascii "etcd", none), (ascii "temp", some sampleCtor)] rfl,
    by decide,
    (C19_binding_never_replaced
      (RegisterMetadataService (none : ServiceMap Unit Nat Nat Nat) (ascii "etcd")
        (some sampleCtor)).1 (ascii "etcd") none).2.1 (by decide)⟩

end Agro
